import Mathlib

/-!
A shallow embedding of the computational core of procal (src/procal.py):
the IEEE-754 single-precision bit-pattern decoder `to_float`, and the
state-bearing parts of the `BinaryView` widget (its list of bit cells, the
bit-field codec `set_value` / `get_value`, the sign-bit marker operations,
and the two's-complement helper), together with theorems settling the
specified properties.

Conventions of the embedding:
- Python arbitrary-precision integers are `Int` (on which Python bitwise
  operators agree with `Int.land` and `Int.not`), unsigned quantities `Nat`.
- The Python expression `1 << k` (for `k : Nat`) is written `2 ^ k`.
- Python float arithmetic in `to_float` is modelled over `Rat`: every value
  the decoder produces (products of a power of two in the binary64 exponent
  range with a 24-bit significand) is exactly representable in binary64, so
  the Python float computations there are exact and the rational model is
  faithful; infinities and NaN are separate constructors.
- Python float formatting inside breakdown strings is rendered with
  `toString` of the rational; the claims under proof only inspect whether a
  breakdown string is empty, which does not depend on number rendering.
- GUI-only behaviour (colors, fonts, Qt table geometry, callbacks) carries
  no numeric state and is omitted; `error_message` records the message that
  the final call to `_callback` propagates to the observers of the view
  (`_callback` clears the field after propagating it, so it is `none` at
  entry to every operation and `none` again whenever no error occurred).
-/

namespace Procal

/-- Result of interpreting 32 bits as an IEEE-754 single: a finite value
(modelled exactly as a rational), an infinity, or NaN. -/
inductive FloatVal where
  | finite (q : ℚ)
  | posInf
  | negInf
  | nan
deriving DecidableEq

/-- Embedding of the module-level function `to_float(value)` of
src/procal.py: interpret the low 32 bits of `value` as an IEEE-754
single-precision pattern, returning the value and a breakdown string. -/
def to_float (value : ℕ) : FloatVal × String :=
  let sign := (value >>> 31) &&& 0x01
  let exponent := (value >>> 23) &&& 0xFF
  let fraction := value &&& 0x7FFFFF
  let literal : ℚ := (-1 : ℚ) ^ sign
  let string : String := toString ((-1 : ℤ) ^ sign) ++ "*"
  if exponent = 0xFF then
    -- nan/inf (and the breakdown string is reset to the empty string)
    if fraction = 0x00 then
      if sign = 0x01 then (FloatVal.negInf, "") else (FloatVal.posInf, "")
    else
      (FloatVal.nan, "")
  else if exponent = 0x00 then
    -- subnormal number
    (FloatVal.finite (literal * ((2 : ℚ) ^ (-126 : ℤ) * fraction / 2 ^ 23)),
      string ++ "2^(-126)*(" ++ toString ((fraction : ℚ) / 2 ^ 23) ++ ")")
  else
    -- normal number
    (FloatVal.finite (literal * (2 : ℚ) ^ ((exponent : ℤ) - 127) * (1 + (fraction : ℚ) / 2 ^ 23)),
      string ++ "2^(" ++ toString exponent ++ " - 127)*("
        ++ toString (1 + (fraction : ℚ) / 2 ^ 23) ++ ")")

/-- Embedding of `BinaryView._twos_complement(onesComplement, nBits)`:
`if onesComplement & 1 << (nBits - 1) == 0: return onesComplement
 else: return ((~onesComplement + 1) & ((1 << nBits) - 1)) * -1`.
Python bitwise `&` and `~` on ints are `Int.land` and `Int.not` (written
`~~~`), and `1 << k` is `2 ^ k`. -/
def _twos_complement (onesComplement : ℤ) (nBits : ℕ) : ℤ :=
  if Int.land onesComplement (2 ^ (nBits - 1)) = 0 then
    onesComplement
  else
    Int.land (~~~onesComplement + 1) (2 ^ nBits - 1) * -1

/-- The persistent state of one `BinaryTableItem` cell of the view: its bit
position `index`, the displayed bit `value`, and whether the cell is marked
as the sign bit (`is_bit_limit`). Display-only fields (text, font, color,
the transient mouse-pressed flag) are omitted. -/
structure BinaryTableItem where
  index : ℕ
  value : Bool
  is_bit_limit : Bool
deriving DecidableEq

/-- Embedding of `BinaryTableItem.set_is_bit_limit` (the color update it
performs is display-only). -/
def BinaryTableItem.set_is_bit_limit (self : BinaryTableItem) (b : Bool) :
    BinaryTableItem :=
  { self with is_bit_limit := b }

/-- Embedding of `BinaryTableItem.toggle_is_bit_limit`. -/
def BinaryTableItem.toggle_is_bit_limit (self : BinaryTableItem) : BinaryTableItem :=
  { self with is_bit_limit := !self.is_bit_limit }

/-- Embedding of `BinaryTableItem.force_to(value)` (text and color updates
are display-only). -/
def BinaryTableItem.force_to (self : BinaryTableItem) (value : Bool) : BinaryTableItem :=
  { self with value := value }

/-- The display mode of the view: `BinaryView.MODE_FLOAT = 1`,
`BinaryView.MODE_INT = 2`. -/
inductive Mode where
  | MODE_FLOAT
  | MODE_INT
deriving DecidableEq

/-- The numeric state of a `BinaryView`: the ordered list of bit cells
`table_elements` (position `i` holds the cell with bit index `i`), the
active width `n_bits`, the display mode, and the error message propagated
to observers by the most recent `_callback`. -/
structure BinaryView where
  table_elements : List BinaryTableItem
  n_bits : ℕ
  mode : Mode
  error_message : Option String
deriving DecidableEq

/-- Embedding of `BinaryView.get_sign_bit_index`: the index of the last
cell (in iteration order) whose `is_bit_limit` flag is set, if any. -/
def BinaryView.get_sign_bit_index (self : BinaryView) : Option ℕ :=
  self.table_elements.foldl
    (fun limit bit => if bit.is_bit_limit then some bit.index else limit) none

/-- Embedding of `BinaryView.get_value`: the unsigned value (sum of
`1 << item.index`, i.e. `2 ^ item.index`, over the set cells), the signed
value when a sign-bit marker is present, and the float interpretation in
float mode. -/
def BinaryView.get_value (self : BinaryView) : ℕ × Option ℤ × Option FloatVal :=
  -- grab unsigned value
  let as_uint : ℕ := self.table_elements.foldl
    (fun as_uint item => if item.value then as_uint + 2 ^ item.index else as_uint) 0
  -- grab signed value
  let as_signed : Option ℤ :=
    match self.get_sign_bit_index with
    | some bit_limit => some (_twos_complement as_uint (bit_limit + 1))
    | none => none
  match self.mode with
  | Mode.MODE_INT => (as_uint, as_signed, none)
  | Mode.MODE_FLOAT => (as_uint, as_signed, some (to_float as_uint).1)

/-- Embedding of the numeric path of `BinaryView.set_value(value)`, after
the string-message branch and, in int mode, the `value.is_integer()` check
have been passed, and, in float mode, after the GUI has replaced the float
by its 32-bit pattern (a nonnegative integer) via `struct.pack`; `value`
is the resulting Python int. The method then: resets every sign-bit
marker, aborts with the out-of-range message if `value >= 2**self.n_bits`,
marks the last cell (`self.table_elements[-1]`) as sign bit if
`value < 0`, and forces cell `bit` to the truth value of
`(1 << bit) & value` for each `bit` in `range(self.n_bits)`. -/
def BinaryView.set_value (self : BinaryView) (value : ℤ) : BinaryView :=
  -- reset bit limits (if previous val was neg)
  let elems := self.table_elements.map (fun bit => bit.set_is_bit_limit false)
  -- sanity check: abort if we cannot display it
  if 2 ^ self.n_bits ≤ value then
    { self with
        table_elements := elems,
        error_message := some ("Out of " ++ toString self.n_bits ++ " bit range") }
  else
    let elems :=
      if value < 0 then
        elems.dropLast ++ (elems.getLast?.map (fun bit => bit.set_is_bit_limit true)).toList
      else
        elems
    -- update bit field to match value
    let elems := elems.mapIdx (fun bit item =>
      if bit < self.n_bits then
        item.force_to (Int.land (2 ^ bit) value != 0)
      else
        item)
    { self with table_elements := elems, error_message := none }

/-- Embedding of `BinaryView.set_sign_bit_index(index)`: toggle the marker
of every cell whose bit index equals `index`, clear the marker of every
other cell. -/
def BinaryView.set_sign_bit_index (self : BinaryView) (index : ℕ) : BinaryView :=
  { self with
      table_elements := self.table_elements.map (fun bit =>
        if bit.index = index then bit.toggle_is_bit_limit else bit.set_is_bit_limit false) }

/-- The list of cells built by `BinaryView._populate_table_int` /
`_populate_table_float`: freshly constructed `BinaryTableItem`s (bit value
false, marker false) appended in increasing order of `digit_index`, so the
cell at position `i` has bit index `i`. -/
def mk_table_elements (n : ℕ) : List BinaryTableItem :=
  (List.range n).map (fun i => { index := i, value := false, is_bit_limit := false })

/-- Embedding of `BinaryView.set_new_bit_width(n_bits)`: widths other than
32 and 64 are rejected with no state change; otherwise the table is
rebuilt from scratch at the new width (both populate routines produce the
cells of `mk_table_elements n_bits`). -/
def BinaryView.set_new_bit_width (self : BinaryView) (n_bits : ℕ) : BinaryView :=
  if n_bits ≠ 32 ∧ n_bits ≠ 64 then
    self
  else
    { self with table_elements := mk_table_elements n_bits, n_bits := n_bits }

/-- Embedding of `BinaryView.__init__(n_bits, mode)`: an empty view of the
given mode on which `set_new_bit_width(n_bits)` is invoked. -/
def BinaryView.init (n_bits : ℕ) (mode : Mode) : BinaryView :=
  BinaryView.set_new_bit_width
    { table_elements := [], n_bits := 0, mode := mode, error_message := none } n_bits

/-- Well-formedness of a view, as established by the populate routines:
the cell at position `i` of `table_elements` has bit index `i`, and there
are exactly `n_bits` cells. -/
def BinaryView.wf (self : BinaryView) : Prop :=
  self.table_elements.map BinaryTableItem.index = List.range self.n_bits

/-- The sign-bit-marker uniqueness invariant: at most one cell of the view
has its `is_bit_limit` flag set. -/
def BinaryView.at_most_one_sign_bit (self : BinaryView) : Prop :=
  self.table_elements.countP (fun bit => bit.is_bit_limit) ≤ 1

/-- A concrete 32-bit integer-mode view, as built by `MainWindow`. -/
def view32 : BinaryView := BinaryView.init 32 Mode.MODE_INT

/-- `view32` after the user right-clicks bit 31, marking it as sign bit. -/
def view32_signed : BinaryView := view32.set_sign_bit_index 31

instance (self : BinaryView) : Decidable self.wf :=
  inferInstanceAs (Decidable (_ = _))

instance (self : BinaryView) : Decidable self.at_most_one_sign_bit :=
  inferInstanceAs (Decidable (_ ≤ _))

/-! Helper lemmas relating the `Int` bitwise operations used by the
embedding to `Nat` bit operations. -/

theorem int_land_coe_coe (a b : ℕ) :
    Int.land (a : ℤ) (b : ℤ) = ((a &&& b : ℕ) : ℤ) := rfl

theorem int_not_coe (a : ℕ) : ~~~(a : ℤ) = Int.negSucc a := rfl

theorem int_land_negSucc_coe (m n : ℕ) :
    Int.land (Int.negSucc m) (n : ℤ) = ((Nat.ldiff n m : ℕ) : ℤ) := rfl

theorem int_not_coe_add_one (v : ℕ) : ~~~(v : ℤ) + 1 = -(v : ℤ) := by
  rw [int_not_coe, Int.negSucc_eq]; ring

theorem neg_coe_eq_negSucc (v : ℕ) (h : 0 < v) :
    -(v : ℤ) = Int.negSucc (v - 1) := by
  rw [Int.negSucc_eq]; omega

theorem ldiff_two_pow_sub (w v : ℕ) (h1 : 0 < v) (h2 : v ≤ 2 ^ w) :
    Nat.ldiff (2 ^ w - 1) (v - 1) = 2 ^ w - v := by
  apply Nat.eq_of_testBit_eq
  intro i
  have hv : v - 1 < 2 ^ w := by omega
  have h3 : 2 ^ w - v = 2 ^ w - (v - 1 + 1) := by omega
  rw [Nat.testBit_ldiff, Nat.testBit_two_pow_sub_one, h3,
    Nat.testBit_two_pow_sub_succ hv]

theorem testBit_true_le {v w : ℕ} (h : v.testBit w = true) : 2 ^ w ≤ v := by
  rw [Nat.testBit_to_div_mod, decide_eq_true_eq] at h
  rcases Nat.lt_or_ge v (2 ^ w) with hlt | hge
  · rw [Nat.div_eq_of_lt hlt] at h; simp at h
  · exact hge

theorem testBit_false_lt {v w : ℕ} (hv : v < 2 ^ (w + 1))
    (h : v.testBit w = false) : v < 2 ^ w := by
  rw [Nat.testBit_to_div_mod, decide_eq_false_iff_not] at h
  by_contra hge
  push_neg at hge
  have h2 : v / 2 ^ w = 1 := by
    apply Nat.div_eq_of_lt_le (by omega)
    calc v < 2 ^ (w + 1) := hv
    _ = (1 + 1) * 2 ^ w := by ring
  rw [h2] at h
  exact h rfl

/-- The two's-complement helper, characterized arithmetically: on an
in-range unsigned value it subtracts `2 ^ nBits` exactly when the top bit
of the `nBits`-wide window is set. -/
theorem twos_complement_char (w v : ℕ) (hv : v < 2 ^ w) :
    _twos_complement v w =
      if v.testBit (w - 1) then (v : ℤ) - 2 ^ w else (v : ℤ) := by
  unfold _twos_complement
  have hcast : ((2 : ℤ) ^ (w - 1)) = ((2 ^ (w - 1) : ℕ) : ℤ) := by push_cast; ring
  rw [hcast, int_land_coe_coe, Nat.and_two_pow]
  cases hb : v.testBit (w - 1) with
  | false => simp [hb]
  | true =>
    have hv1 : 2 ^ (w - 1) ≤ v := testBit_true_le hb
    have hv0 : 0 < v := lt_of_lt_of_le (Nat.pos_pow_of_pos _ (by norm_num)) hv1
    have hmask : ((2 : ℤ) ^ w - 1) = ((2 ^ w - 1 : ℕ) : ℤ) := by
      push_cast [Nat.one_le_two_pow]; ring
    rw [if_neg (by simp), int_not_coe_add_one, neg_coe_eq_negSucc v hv0, hmask,
      int_land_negSucc_coe, ldiff_two_pow_sub w v hv0 (le_of_lt hv)]
    push_cast [le_of_lt hv]
    rw [if_pos rfl]
    ring

/-- C2: for every bit width `w` and every unsigned `v` with
`0 ≤ v < 2 ^ w`, `BinaryView._twos_complement v w` returns `v` when bit
`w - 1` of `v` is 0, and returns `-((~v + 1) mod 2 ^ w)` otherwise; in
particular `_twos_complement 0xFFFFFFFF 32 = -1` and
`_twos_complement 0x7FFFFFFF 32 = 2147483647`. -/
theorem C2_twos_complement_spec :
    (∀ (w v : ℕ), v < 2 ^ w →
      (v.testBit (w - 1) = false → _twos_complement (v : ℤ) w = (v : ℤ)) ∧
      (v.testBit (w - 1) = true →
        _twos_complement (v : ℤ) w = -((~~~(v : ℤ) + 1) % 2 ^ w))) ∧
    _twos_complement 0xFFFFFFFF 32 = -1 ∧
    _twos_complement 0x7FFFFFFF 32 = 2147483647 := by
  refine ⟨fun w v hv => ⟨fun hb => ?_, fun hb => ?_⟩, ?_, ?_⟩
  · rw [twos_complement_char w v hv, if_neg (by simp [hb])]
  · rw [twos_complement_char w v hv, if_pos hb, int_not_coe_add_one]
    have hv0 : 0 < v := by
      have := testBit_true_le hb
      have := Nat.pos_pow_of_pos (w - 1) (show 0 < 2 by norm_num)
      omega
    have hvz : (0 : ℤ) < (v : ℤ) := by exact_mod_cast hv0
    have hvw : (v : ℤ) < 2 ^ w := by exact_mod_cast hv
    have h1 : (-(v : ℤ)) % 2 ^ w = ((2 : ℤ) ^ w - v) % 2 ^ w := by
      rw [show (-(v : ℤ)) = ((2 : ℤ) ^ w - v) + 2 ^ w * (-1) by ring,
        Int.add_mul_emod_self_left]
    have h2 : ((2 : ℤ) ^ w - v) % 2 ^ w = (2 : ℤ) ^ w - v :=
      Int.emod_eq_of_lt (by linarith) (by linarith)
    rw [h1, h2]
    ring
  · have h := twos_complement_char 32 0xFFFFFFFF (by norm_num)
    rw [show ((0xFFFFFFFF : ℕ) : ℤ) = (0xFFFFFFFF : ℤ) by norm_cast] at h
    rw [h, if_pos (show Nat.testBit 0xFFFFFFFF 31 = true by decide)]
    norm_num
  · have h := twos_complement_char 32 0x7FFFFFFF (by norm_num)
    rw [show ((0x7FFFFFFF : ℕ) : ℤ) = (0x7FFFFFFF : ℤ) by norm_cast] at h
    rw [h, if_neg (by decide)]

/-- C2 witness: the general part of C2 instantiated at `w = 32`,
`v = 5`. -/
theorem C2_twos_complement_spec_wit :
    (5 : ℕ) < 2 ^ 32 ∧ Nat.testBit 5 31 = false ∧
      _twos_complement ((5 : ℕ) : ℤ) 32 = ((5 : ℕ) : ℤ) :=
  ⟨by norm_num, by decide,
    (C2_twos_complement_spec.1 32 5 (by norm_num)).1 (by decide)⟩

/-- C6: for `w ∈ {32, 64}` and `0 ≤ v < 2 ^ w`, the signed interpretation
`BinaryView._twos_complement v w` is negative exactly when bit `w - 1` of
`v` is set. -/
theorem C6_twos_complement_neg_iff (w : ℕ) (_hw : w = 32 ∨ w = 64) (v : ℕ)
    (hv : v < 2 ^ w) :
    _twos_complement (v : ℤ) w < 0 ↔ v.testBit (w - 1) = true := by
  rw [twos_complement_char w v hv]
  cases hb : v.testBit (w - 1) with
  | false =>
    rw [if_neg Bool.false_ne_true]
    exact ⟨fun h => absurd h (not_lt.mpr (Int.natCast_nonneg v)),
      fun h => absurd h Bool.false_ne_true⟩
  | true =>
    have hvw : (v : ℤ) < 2 ^ w := by exact_mod_cast hv
    rw [if_pos rfl]
    exact ⟨fun _ => rfl, fun _ => by linarith⟩

/-- C6 witness: instantiated at `w = 32`, `v = 0x80000000`. -/
theorem C6_twos_complement_neg_iff_wit :
    ((32 : ℕ) = 32 ∨ (32 : ℕ) = 64) ∧ (0x80000000 : ℕ) < 2 ^ 32 ∧
      (_twos_complement ((0x80000000 : ℕ) : ℤ) 32 < 0 ↔
        Nat.testBit 0x80000000 31 = true) :=
  ⟨Or.inl rfl, by norm_num,
    C6_twos_complement_neg_iff 32 (Or.inl rfl) 0x80000000 (by norm_num)⟩

/-- C10: for every bit width `w ≥ 1` and every `v` with `0 ≤ v < 2 ^ w`,
`BinaryView._twos_complement v w` lies in `[-2 ^ (w - 1), 2 ^ (w - 1) - 1]`
and is congruent to `v` modulo `2 ^ w`. -/
theorem C10_twos_complement_range_congr (w : ℕ) (hw : 1 ≤ w) (v : ℕ)
    (hv : v < 2 ^ w) :
    -((2 : ℤ) ^ (w - 1)) ≤ _twos_complement (v : ℤ) w ∧
    _twos_complement (v : ℤ) w ≤ 2 ^ (w - 1) - 1 ∧
    _twos_complement (v : ℤ) w ≡ (v : ℤ) [ZMOD 2 ^ w] := by
  rw [twos_complement_char w v hv]
  have hpow : (2 : ℤ) ^ w = 2 * 2 ^ (w - 1) := by
    rw [← pow_succ']
    congr 1
    omega
  have hp1 : (1 : ℤ) ≤ 2 ^ (w - 1) := by exact_mod_cast Nat.one_le_two_pow
  cases hb : v.testBit (w - 1) with
  | false =>
    have hvs : v < 2 ^ (w - 1) := by
      apply testBit_false_lt _ hb
      have : w - 1 + 1 = w := by omega
      rw [this]
      exact hv
    have hvs' : (v : ℤ) < 2 ^ (w - 1) := by exact_mod_cast hvs
    have hv0 : (0 : ℤ) ≤ (v : ℤ) := Int.natCast_nonneg v
    rw [if_neg Bool.false_ne_true]
    exact ⟨by linarith, by linarith, Int.ModEq.refl _⟩
  | true =>
    have hvl : 2 ^ (w - 1) ≤ v := testBit_true_le hb
    have hvl' : (2 : ℤ) ^ (w - 1) ≤ (v : ℤ) := by exact_mod_cast hvl
    have hvw : (v : ℤ) < 2 ^ w := by exact_mod_cast hv
    rw [if_pos rfl]
    refine ⟨by linarith, by linarith, ?_⟩
    rw [Int.modEq_iff_dvd]
    exact ⟨1, by ring⟩

/-- C10 witness: instantiated at `w = 32`, `v = 0xFFFFFFFF`. -/
theorem C10_twos_complement_range_congr_wit :
    (1 : ℕ) ≤ 32 ∧ (0xFFFFFFFF : ℕ) < 2 ^ 32 ∧
      (-((2 : ℤ) ^ (32 - 1)) ≤ _twos_complement ((0xFFFFFFFF : ℕ) : ℤ) 32 ∧
        _twos_complement ((0xFFFFFFFF : ℕ) : ℤ) 32 ≤ 2 ^ (32 - 1) - 1 ∧
        _twos_complement ((0xFFFFFFFF : ℕ) : ℤ) 32 ≡ ((0xFFFFFFFF : ℕ) : ℤ)
          [ZMOD 2 ^ 32]) :=
  ⟨by norm_num, by norm_num,
    C10_twos_complement_range_congr 32 (by norm_num) 0xFFFFFFFF (by norm_num)⟩

/-- C3: the IEEE-754 single-precision decoder `to_float` is total (it is
defined on every natural number, in particular on every 32-bit input) and
satisfies the case split on `exponent` = bits 30..23 and `fraction` = bits
22..0: infinity of the sign given by bit 31 with an empty breakdown string
when `exponent = 0xFF` and `fraction = 0`; NaN with an empty breakdown
string when `exponent = 0xFF` and `fraction ≠ 0`; the subnormal value
`(-1) ^ sign * 2 ^ (-126) * (fraction / 2 ^ 23)` when `exponent = 0`; and
the normal value `(-1) ^ sign * 2 ^ (exponent - 127) * (1 + fraction / 2 ^ 23)`
otherwise. -/
theorem C3_to_float_cases (value : ℕ) :
    ((value >>> 23) &&& 0xFF = 0xFF → value &&& 0x7FFFFF = 0 →
      to_float value =
        (if (value >>> 31) &&& 0x01 = 1 then FloatVal.negInf else FloatVal.posInf,
          "")) ∧
    ((value >>> 23) &&& 0xFF = 0xFF → value &&& 0x7FFFFF ≠ 0 →
      to_float value = (FloatVal.nan, "")) ∧
    ((value >>> 23) &&& 0xFF = 0 →
      (to_float value).1 = FloatVal.finite
        ((-1 : ℚ) ^ ((value >>> 31) &&& 0x01) * (2 : ℚ) ^ (-126 : ℤ) *
          ((value &&& 0x7FFFFF : ℕ) / 2 ^ 23))) ∧
    ((value >>> 23) &&& 0xFF ≠ 0xFF → (value >>> 23) &&& 0xFF ≠ 0 →
      (to_float value).1 = FloatVal.finite
        ((-1 : ℚ) ^ ((value >>> 31) &&& 0x01) *
          (2 : ℚ) ^ ((((value >>> 23) &&& 0xFF : ℕ) : ℤ) - 127) *
          (1 + (value &&& 0x7FFFFF : ℕ) / 2 ^ 23))) := by
  refine ⟨fun he hf => ?_, fun he hf => ?_, fun he => ?_, fun he1 he2 => ?_⟩
  · simp [to_float, he, hf]
    split <;> rfl
  · simp [to_float, he, hf]
  · simp [to_float, he]
    ring
  · simp [to_float, he1, he2]

/-- C3 witness: the infinity case instantiated at the bit pattern of
`+inf`. -/
theorem C3_to_float_cases_wit :
    (0x7F800000 >>> 23) &&& 0xFF = 0xFF ∧ (0x7F800000 : ℕ) &&& 0x7FFFFF = 0 ∧
      to_float 0x7F800000 = (FloatVal.posInf, "") :=
  ⟨rfl, rfl, by
    have h := (C3_to_float_cases 0x7F800000).1 rfl rfl
    rwa [if_neg (by decide)] at h⟩

end Procal

namespace Procal

theorem wf_length {self : BinaryView} (h : self.wf) :
    self.table_elements.length = self.n_bits := by
  have h2 := congrArg List.length h
  simpa using h2

theorem wf_index {self : BinaryView} (h : self.wf) (i : ℕ)
    (hi : i < self.table_elements.length) :
    (self.table_elements[i]).index = i := by
  have h1 : i < (self.table_elements.map BinaryTableItem.index).length := by
    simpa using hi
  have h3 := List.getElem_of_eq h h1
  rw [List.getElem_map, List.getElem_range] at h3
  exact h3

theorem int_land_coe_negSucc (m n : ℕ) :
    Int.land (m : ℤ) (Int.negSucc n) = ((Nat.ldiff m n : ℕ) : ℤ) := rfl

theorem bne_zero_testBit (bit v : ℕ) :
    (Int.land ((2 : ℤ) ^ bit) ((v : ℕ) : ℤ) != 0) = v.testBit bit := by
  rw [show ((2 : ℤ) ^ bit) = ((2 ^ bit : ℕ) : ℤ) by push_cast; ring,
    int_land_coe_coe, Nat.two_pow_and]
  cases hb : v.testBit bit <;> simp [hb]

theorem land_neg_one_bne (bit : ℕ) :
    (Int.land ((2 : ℤ) ^ bit) (-1) != 0) = true := by
  rw [show ((2 : ℤ) ^ bit) = ((2 ^ bit : ℕ) : ℤ) by push_cast; ring,
    show (-1 : ℤ) = Int.negSucc 0 from rfl, int_land_coe_negSucc]
  have h : Nat.ldiff (2 ^ bit) 0 = 2 ^ bit := by
    apply Nat.eq_of_testBit_eq
    intro i
    rw [Nat.testBit_ldiff]
    simp
  rw [h]
  simp [pow_ne_zero]

theorem length_set_last (l : List BinaryTableItem) :
    (l.dropLast ++
      (l.getLast?.map (fun bit => bit.set_is_bit_limit true)).toList).length =
      l.length := by
  rcases l.eq_nil_or_concat with rfl | ⟨l2, a, rfl⟩
  · rfl
  · rw [List.concat_eq_append, List.dropLast_concat, List.getLast?_concat]
    simp

theorem set_value_table_nonneg {self : BinaryView} (hwf : self.wf) (v : ℕ)
    (hv : v < 2 ^ self.n_bits) :
    (self.set_value (v : ℤ)).table_elements =
      (List.range self.n_bits).map (fun i =>
        { index := i, value := v.testBit i, is_bit_limit := false }) := by
  have hA : ¬ ((2 : ℤ) ^ self.n_bits ≤ ((v : ℕ) : ℤ)) := by
    push_neg
    exact_mod_cast hv
  have hB : ¬ (((v : ℕ) : ℤ) < 0) := not_lt.mpr (Int.natCast_nonneg v)
  simp only [BinaryView.set_value]
  rw [if_neg hA, if_neg hB]
  apply List.ext_getElem
  · simp [List.length_mapIdx, wf_length hwf]
  · intro i h1 h2
    have hi : i < self.n_bits := by simpa using h2
    have hilen : i < self.table_elements.length := by
      rw [wf_length hwf]
      exact hi
    simp only [List.getElem_mapIdx, List.getElem_map, List.getElem_range]
    rw [if_pos hi]
    simp [BinaryTableItem.force_to, BinaryTableItem.set_is_bit_limit,
      wf_index hwf i hilen, bne_zero_testBit]

end Procal

namespace Procal

theorem set_value_table_neg {self : BinaryView} (hwf : self.wf) (value : ℤ)
    (hneg : value < 0) (hn : 0 < self.n_bits) :
    (self.set_value value).table_elements =
      (List.range self.n_bits).map (fun i =>
        { index := i, value := Int.land (2 ^ i) value != 0,
          is_bit_limit := decide (i = self.n_bits - 1) }) := by
  have hA : ¬ ((2 : ℤ) ^ self.n_bits ≤ value) := by
    have hp : (0 : ℤ) < 2 ^ self.n_bits := by positivity
    push_neg
    linarith
  simp only [BinaryView.set_value]
  rw [if_neg hA, if_pos hneg]
  have hlen : (self.table_elements.map
      (fun bit => bit.set_is_bit_limit false)).length = self.n_bits := by
    simp [wf_length hwf]
  rcases (self.table_elements.map
      (fun bit => bit.set_is_bit_limit false)).eq_nil_or_concat with hnil | ⟨L, b, hLb⟩
  · rw [hnil] at hlen
    simp at hlen
    omega
  · have hLb2 : self.table_elements.map (fun bit => bit.set_is_bit_limit false)
        = L ++ [b] := by
      rw [hLb, List.concat_eq_append]
    have hLlen : L.length = self.n_bits - 1 := by
      have h5 := congrArg List.length hLb2
      rw [hlen] at h5
      simp at h5
      omega
    have hbidx : b.index = self.n_bits - 1 := by
      have hlt : self.n_bits - 1 < (self.table_elements.map
          (fun bit => bit.set_is_bit_limit false)).length := by
        rw [hlen]
        omega
      have hgl := List.getElem_of_eq hLb2 hlt
      rw [List.getElem_append_right (by omega)] at hgl
      rw [List.getElem_singleton] at hgl
      have hte : self.n_bits - 1 < self.table_elements.length := by
        rw [wf_length hwf]
        omega
      rw [List.getElem_map] at hgl
      rw [← hgl]
      exact wf_index hwf _ hte
    have hLget : ∀ (i : ℕ) (hiL : i < L.length),
        L[i].index = i ∧ L[i].is_bit_limit = false := by
      intro i hiL
      have hlt : i < (self.table_elements.map
          (fun bit => bit.set_is_bit_limit false)).length := by
        rw [hlen]
        omega
      have hgl := List.getElem_of_eq hLb2 hlt
      rw [List.getElem_append_left hiL] at hgl
      have hte : i < self.table_elements.length := by
        rw [wf_length hwf]
        rw [hLlen] at hiL
        omega
      rw [List.getElem_map] at hgl
      rw [← hgl]
      exact ⟨wf_index hwf _ hte, rfl⟩
    rw [hLb2, List.dropLast_concat, List.getLast?_concat,
      Option.map_some', Option.toList_some]
    apply List.ext_getElem
    · simp [List.length_mapIdx, hLlen]
      omega
    · intro i h1 h2
      have hi : i < self.n_bits := by simpa using h2
      rw [List.getElem_mapIdx, if_pos hi]
      rw [List.getElem_map, List.getElem_range]
      by_cases hlast : i = self.n_bits - 1
      · have hge : L.length ≤ i := by omega
        rw [List.getElem_append_right hge, List.getElem_singleton]
        simp [BinaryTableItem.force_to, BinaryTableItem.set_is_bit_limit, hbidx, hlast]
      · have hlt : i < L.length := by omega
        rw [List.getElem_append_left hlt]
        obtain ⟨hidx, hlim⟩ := hLget i hlt
        simp [BinaryTableItem.force_to, hidx, hlim, hlast]

end Procal

namespace Procal

theorem fold_sign_no_limit (l : List BinaryTableItem) (acc : Option ℕ)
    (h : ∀ x ∈ l, x.is_bit_limit = false) :
    l.foldl (fun limit bit => if bit.is_bit_limit then some bit.index else limit)
      acc = acc := by
  induction l generalizing acc with
  | nil => rfl
  | cons a t ih =>
    rw [List.foldl_cons]
    have ha := h a (List.mem_cons_self a t)
    rw [ha, if_neg Bool.false_ne_true]
    exact ih acc (fun x hx => h x (List.mem_cons_of_mem a hx))

theorem get_value_fst (self : BinaryView) :
    self.get_value.1 = self.table_elements.foldl
      (fun as_uint item => if item.value then as_uint + 2 ^ item.index else as_uint)
      0 := by
  rcases self with ⟨te, nb, m, em⟩
  cases m <;> rfl

theorem foldl_range_sum (f : ℕ → Bool) (a n : ℕ) :
    (List.range n).foldl (fun acc i => if f i then acc + 2 ^ i else acc) a =
      a + ∑ i ∈ Finset.range n, (if f i then 2 ^ i else 0) := by
  induction n with
  | zero => simp
  | succ n ih =>
    rw [List.range_succ, List.foldl_append, ih, Finset.sum_range_succ]
    cases hf : f n
    case true =>
      simp [hf]
      omega
    case false =>
      simp [hf]

theorem sum_testBit {n v : ℕ} (h : v < 2 ^ n) :
    ∑ i ∈ Finset.range n, (if v.testBit i then 2 ^ i else 0) = v := by
  induction n generalizing v with
  | zero =>
    simp only [Finset.range_zero, Finset.sum_empty]
    omega
  | succ n ih =>
    rw [Finset.sum_range_succ']
    have hdiv : v / 2 < 2 ^ n := by
      rw [Nat.div_lt_iff_lt_mul (by norm_num)]
      rw [← pow_succ]
      exact h
    have hsum : (∑ i ∈ Finset.range n, if v.testBit (i + 1) then 2 ^ (i + 1) else 0)
        = 2 * ∑ i ∈ Finset.range n, (if (v / 2).testBit i then 2 ^ i else 0) := by
      rw [Finset.mul_sum]
      apply Finset.sum_congr rfl
      intro i _
      rw [Nat.testBit_succ]
      cases hb : (v / 2).testBit i
      all_goals simp [hb]
      ring
    rw [hsum, ih hdiv, Nat.testBit_zero]
    rcases Nat.mod_two_eq_zero_or_one v with hm | hm
    all_goals simp [hm]
    all_goals omega

/-- C1: round-trip of the bit-field codec at width 32 or 64: loading an
in-range unsigned value with `BinaryView.set_value` and reading the
unsigned component back with `BinaryView.get_value` returns the value. -/
theorem C1_decode_encode_roundtrip (self : BinaryView) (hwf : self.wf)
    (_hn : self.n_bits = 32 ∨ self.n_bits = 64) (v : ℕ)
    (hv : v < 2 ^ self.n_bits) :
    ((self.set_value (v : ℤ)).get_value).1 = v := by
  rw [get_value_fst, set_value_table_nonneg hwf v hv, List.foldl_map]
  show (List.range self.n_bits).foldl
    (fun acc i => if v.testBit i then acc + 2 ^ i else acc) 0 = v
  rw [foldl_range_sum (fun i => v.testBit i) 0 self.n_bits, sum_testBit hv, zero_add]

/-- C1 witness: the round-trip at the concrete 32-bit view and `v = 5`. -/
theorem C1_decode_encode_roundtrip_wit :
    view32.wf ∧ (5 : ℕ) < 2 ^ view32.n_bits ∧
      ((view32.set_value ((5 : ℕ) : ℤ)).get_value).1 = 5 :=
  ⟨by decide, by decide,
    C1_decode_encode_roundtrip view32 (by decide) (Or.inl (by decide)) 5 (by decide)⟩

end Procal

namespace Procal

/-- C4 counterexample: a negative value is accepted by
`BinaryView.set_value` (no error message), contradicting the claim that
`value < 0` fails with OutOfRange. -/
theorem C4_counterexample :
    (-1 : ℤ) < 0 ∧ (view32.set_value (-1)).error_message = none := by
  constructor
  · norm_num
  · decide

/-- C4 (amended): at width 32 or 64, `BinaryView.set_value` fails with the
OutOfRange message exactly when `value ≥ 2 ^ n_bits`; every other integer
value (negative values included) is accepted without error. -/
theorem C4_set_value_error_iff (self : BinaryView)
    (_hn : self.n_bits = 32 ∨ self.n_bits = 64) (value : ℤ) :
    ((self.set_value value).error_message =
        some ("Out of " ++ toString self.n_bits ++ " bit range") ↔
      2 ^ self.n_bits ≤ value) ∧
    ((self.set_value value).error_message = none ↔ value < 2 ^ self.n_bits) := by
  simp only [BinaryView.set_value]
  by_cases h : (2 : ℤ) ^ self.n_bits ≤ value
  · rw [if_pos h]
    refine ⟨by simp [h], ?_⟩
    exact ⟨fun hc => by simp at hc, fun hc => absurd hc (not_lt.mpr h)⟩
  · rw [if_neg h]
    push_neg at h
    refine ⟨⟨fun hc => by simp at hc, fun hc => absurd hc (not_le.mpr h)⟩, ?_⟩
    simp [h]

/-- C4 witness: the amended error condition at the 32-bit view and
`value = 5`. -/
theorem C4_set_value_error_iff_wit :
    (view32.n_bits = 32 ∨ view32.n_bits = 64) ∧
      ((view32.set_value 5).error_message = none ↔ (5 : ℤ) < 2 ^ view32.n_bits) :=
  ⟨Or.inl (by decide), (C4_set_value_error_iff view32 (Or.inl (by decide)) 5).2⟩

/-- C5 counterexample: loading an out-of-range value into a view whose
sign-bit marker is set clears the marker, so the state is not fully
preserved as the claim asserts. -/
theorem C5_counterexample :
    2 ^ view32_signed.n_bits ≤ (2 ^ 32 : ℤ) ∧
    view32_signed.get_sign_bit_index = some 31 ∧
    (view32_signed.set_value (2 ^ 32)).get_sign_bit_index ≠
      view32_signed.get_sign_bit_index := by
  have hn : view32_signed.n_bits = 32 := rfl
  refine ⟨by rw [hn], by decide, by decide⟩

/-- C5 (amended): on an out-of-range value, `BinaryView.set_value`
surfaces the OutOfRange message and leaves every bit value unchanged, but
the sign-bit marker is cleared (reset to none) rather than preserved. -/
theorem C5_out_of_range_no_bit_mutation (self : BinaryView) (value : ℤ)
    (h : 2 ^ self.n_bits ≤ value) :
    (self.set_value value).error_message =
      some ("Out of " ++ toString self.n_bits ++ " bit range") ∧
    (self.set_value value).table_elements.map BinaryTableItem.value =
      self.table_elements.map BinaryTableItem.value ∧
    (self.set_value value).get_sign_bit_index = none := by
  refine ⟨?_, ?_, ?_⟩
  · simp only [BinaryView.set_value]
    rw [if_pos h]
  · simp only [BinaryView.set_value]
    rw [if_pos h]
    dsimp only
    rw [List.map_map]
    rfl
  · simp only [BinaryView.get_sign_bit_index, BinaryView.set_value]
    rw [if_pos h]
    apply fold_sign_no_limit
    intro x hx
    rw [List.mem_map] at hx
    obtain ⟨y, _, rfl⟩ := hx
    rfl

/-- C5 witness: the amended statement at the marked 32-bit view and the
out-of-range value `2 ^ 32`. -/
theorem C5_out_of_range_no_bit_mutation_wit :
    2 ^ view32_signed.n_bits ≤ (2 ^ 32 : ℤ) ∧
      ((view32_signed.set_value (2 ^ 32)).error_message =
          some ("Out of " ++ toString view32_signed.n_bits ++ " bit range") ∧
        (view32_signed.set_value (2 ^ 32)).table_elements.map BinaryTableItem.value =
          view32_signed.table_elements.map BinaryTableItem.value ∧
        (view32_signed.set_value (2 ^ 32)).get_sign_bit_index = none) :=
  ⟨by rw [show view32_signed.n_bits = 32 from rfl],
    C5_out_of_range_no_bit_mutation view32_signed (2 ^ 32)
      (by rw [show view32_signed.n_bits = 32 from rfl])⟩

/-- C7: loading the signed value `-1` into a well-formed 32-bit view sets
every one of the 32 bit cells to true. -/
theorem C7_neg_one_all_ones (self : BinaryView) (hwf : self.wf)
    (h32 : self.n_bits = 32) :
    (self.set_value (-1)).table_elements.all (fun bit => bit.value) = true := by
  rw [set_value_table_neg hwf (-1) (by norm_num) (by omega)]
  rw [List.all_eq_true]
  intro x hx
  rw [List.mem_map] at hx
  obtain ⟨i, _, rfl⟩ := hx
  exact land_neg_one_bne i

/-- C7 witness: the all-ones round-trip at the concrete 32-bit view. -/
theorem C7_neg_one_all_ones_wit :
    view32.wf ∧ view32.n_bits = 32 ∧
      (view32.set_value (-1)).table_elements.all (fun bit => bit.value) = true :=
  ⟨by decide, rfl, C7_neg_one_all_ones view32 (by decide) rfl⟩

/-- C9 counterexample: `-1` is accepted by `BinaryView.set_value` (no
error), yet after the call the sign-bit marker is set, not none. -/
theorem C9_counterexample :
    (view32.set_value (-1)).error_message = none ∧
    (view32.set_value (-1)).get_sign_bit_index ≠ none := by
  constructor
  · decide
  · decide

/-- C9 (amended): after `BinaryView.set_value` with an accepted
nonnegative value the sign-bit marker is none; with an accepted negative
value the marker is set to the top bit index `n_bits - 1`. -/
theorem C9_sign_marker_after_load (self : BinaryView) (hwf : self.wf)
    (value : ℤ) (hv : value < 2 ^ self.n_bits) :
    (0 ≤ value → (self.set_value value).get_sign_bit_index = none) ∧
    (value < 0 → 0 < self.n_bits →
      (self.set_value value).get_sign_bit_index = some (self.n_bits - 1)) := by
  constructor
  · intro h0
    obtain ⟨v, rfl⟩ := Int.eq_ofNat_of_zero_le h0
    have hv2 : v < 2 ^ self.n_bits := by exact_mod_cast hv
    simp only [BinaryView.get_sign_bit_index]
    rw [set_value_table_nonneg hwf v hv2]
    apply fold_sign_no_limit
    intro x hx
    rw [List.mem_map] at hx
    obtain ⟨i, _, rfl⟩ := hx
    rfl
  · intro hneg hn
    simp only [BinaryView.get_sign_bit_index]
    rw [set_value_table_neg hwf value hneg hn]
    rw [List.foldl_map]
    show (List.range self.n_bits).foldl
      (fun limit i => if decide (i = self.n_bits - 1) then some i else limit) none
        = some (self.n_bits - 1)
    obtain ⟨k, hk⟩ : ∃ k, self.n_bits = k + 1 := ⟨self.n_bits - 1, by omega⟩
    rw [hk]
    simp only [Nat.add_sub_cancel]
    rw [List.range_succ, List.foldl_append]
    simp

/-- C9 witness: the negative branch of the amended statement at the
32-bit view and `value = -1`. -/
theorem C9_sign_marker_after_load_wit :
    view32.wf ∧ (-1 : ℤ) < 2 ^ view32.n_bits ∧ (-1 : ℤ) < 0 ∧
      0 < view32.n_bits ∧
      (view32.set_value (-1)).get_sign_bit_index = some (view32.n_bits - 1) :=
  ⟨by decide, by rw [show view32.n_bits = 32 from rfl]; norm_num, by norm_num,
    by decide,
    (C9_sign_marker_after_load view32 (by decide) (-1)
        (by rw [show view32.n_bits = 32 from rfl]; norm_num)).2
      (by norm_num) (by decide)⟩

end Procal

namespace Procal

theorem countP_limit_reset (l : List BinaryTableItem) :
    (l.map (fun bit => bit.set_is_bit_limit false)).countP
      (fun bit => bit.is_bit_limit) = 0 := by
  rw [List.countP_map]
  apply List.countP_eq_zero.mpr
  intro a _
  simp [BinaryTableItem.set_is_bit_limit]

theorem countP_mapIdx_limit (g : ℕ → BinaryTableItem → BinaryTableItem)
    (hg : ∀ i x, (g i x).is_bit_limit = x.is_bit_limit) (l : List BinaryTableItem) :
    (l.mapIdx g).countP (fun bit => bit.is_bit_limit) =
      l.countP (fun bit => bit.is_bit_limit) := by
  rw [List.mapIdx_eq_enum_map, List.countP_map]
  have h1 : ((fun bit => bit.is_bit_limit) ∘ Function.uncurry g)
      = fun p : ℕ × BinaryTableItem => p.2.is_bit_limit := by
    funext p
    exact hg p.1 p.2
  rw [h1]
  rw [show (fun p : ℕ × BinaryTableItem => p.2.is_bit_limit)
      = ((fun bit => bit.is_bit_limit) ∘ Prod.snd) from rfl]
  rw [← List.countP_map, List.enum_map_snd]

theorem countP_set_last_le_one (l : List BinaryTableItem) :
    ((l.map (fun bit => bit.set_is_bit_limit false)).dropLast ++
      ((l.map (fun bit => bit.set_is_bit_limit false)).getLast?.map
        (fun bit => bit.set_is_bit_limit true)).toList).countP
      (fun bit => bit.is_bit_limit) ≤ 1 := by
  rw [List.countP_append]
  have h1 : ((l.map (fun bit => bit.set_is_bit_limit false)).dropLast).countP
      (fun bit => bit.is_bit_limit) = 0 := by
    apply List.countP_eq_zero.mpr
    intro a ha
    have ha2 := (List.dropLast_sublist _).subset ha
    rw [List.mem_map] at ha2
    obtain ⟨b, _, rfl⟩ := ha2
    simp [BinaryTableItem.set_is_bit_limit]
  have h2 : (((l.map (fun bit => bit.set_is_bit_limit false)).getLast?.map
      (fun bit => bit.set_is_bit_limit true)).toList).countP
      (fun bit => bit.is_bit_limit) ≤ 1 := by
    refine le_trans (List.countP_le_length _) ?_
    cases (l.map (fun bit => bit.set_is_bit_limit false)).getLast? <;> simp
  omega

theorem countP_mk_table (n : ℕ) :
    (mk_table_elements n).countP (fun bit => bit.is_bit_limit) = 0 := by
  unfold mk_table_elements
  rw [List.countP_map]
  apply List.countP_eq_zero.mpr
  intro a _
  simp

/-- C8: the sign-bit-marker uniqueness invariant: a freshly initialized
view has no marker, and each of `set_sign_bit_index`, `set_value` and
`set_new_bit_width` leaves the view with at most one marked cell. -/
theorem C8_sign_bit_marker_unique :
    (∀ (n : ℕ) (mode : Mode), (BinaryView.init n mode).at_most_one_sign_bit) ∧
    (∀ (self : BinaryView) (index : ℕ), self.wf →
      (self.set_sign_bit_index index).at_most_one_sign_bit) ∧
    (∀ (self : BinaryView) (value : ℤ),
      (self.set_value value).at_most_one_sign_bit) ∧
    (∀ (self : BinaryView) (n_bits : ℕ), self.at_most_one_sign_bit →
      (self.set_new_bit_width n_bits).at_most_one_sign_bit) := by
  have hwidth : ∀ (self : BinaryView) (n : ℕ), self.at_most_one_sign_bit →
      (self.set_new_bit_width n).at_most_one_sign_bit := by
    intro self n h
    unfold BinaryView.set_new_bit_width
    split
    · exact h
    · unfold BinaryView.at_most_one_sign_bit
      dsimp only
      rw [countP_mk_table]
      norm_num
  refine ⟨?_, ?_, ?_, hwidth⟩
  · intro n mode
    unfold BinaryView.init
    apply hwidth
    unfold BinaryView.at_most_one_sign_bit
    simp
  · intro self index hwf
    unfold BinaryView.at_most_one_sign_bit BinaryView.set_sign_bit_index
    dsimp only
    rw [List.countP_map]
    have hstep : List.countP ((fun bit => bit.is_bit_limit) ∘ fun bit =>
        if bit.index = index then bit.toggle_is_bit_limit else bit.set_is_bit_limit false)
        self.table_elements ≤
        List.countP (fun bit => bit.index == index) self.table_elements := by
      apply List.countP_mono_left
      intro x _ hx
      simp only [Function.comp_apply] at hx
      by_cases hi : x.index = index
      · simp [hi]
      · rw [if_neg hi] at hx
        simp [BinaryTableItem.set_is_bit_limit] at hx
    refine le_trans hstep ?_
    have h2 : List.countP (fun bit => bit.index == index) self.table_elements
        = List.countP (fun i => i == index)
            (self.table_elements.map BinaryTableItem.index) := by
      rw [List.countP_map]
      rfl
    rw [h2, hwf, ← List.count_eq_countP]
    exact List.nodup_iff_count_le_one.mp (List.nodup_range self.n_bits) index
  · intro self value
    unfold BinaryView.at_most_one_sign_bit
    simp only [BinaryView.set_value]
    by_cases h : (2 : ℤ) ^ self.n_bits ≤ value
    · rw [if_pos h]
      dsimp only
      rw [countP_limit_reset]
      norm_num
    · rw [if_neg h]
      dsimp only
      rw [countP_mapIdx_limit _ (fun i x => by split <;> rfl)]
      by_cases hneg : value < 0
      · rw [if_pos hneg]
        exact countP_set_last_le_one _
      · rw [if_neg hneg]
        rw [countP_limit_reset]
        norm_num

/-- C8 witness: the invariant after marking bit 31 of the concrete
well-formed 32-bit view. -/
theorem C8_sign_bit_marker_unique_wit :
    view32.wf ∧ (view32.set_sign_bit_index 31).at_most_one_sign_bit :=
  ⟨by decide, C8_sign_bit_marker_unique.2.1 view32 31 (by decide)⟩

end Procal
